import Mathlib

/-!
Shallow embedding of the procedural mesh composition engine of `src/main.py`
(class `Mesh`, the four primitive generators, and the `GLWidget` accumulation
pipeline), together with proofs about it.

Modelling conventions:
  * Vertex coordinates are exact rationals (`ℚ`); the source stores float
    triples in numpy arrays.  `vertices` is a `List` of triples, `faces` a
    `List` of lists of `Nat` ids, mirroring the row-major arrays.
  * The source compares `np.linalg.norm(vertex - unique_vertex) < threshold`.
    Over the rationals this comparison is embedded as
    `0 ≤ threshold ∧ squared distance < threshold * threshold`, which for every
    rational threshold coincides with "Euclidean distance strictly below
    threshold" (see `close_iff_dist`); the square root itself is irrational in
    general and therefore kept out of the executable definitions.
  * `merge_vertices` returns `none` exactly when the source's
    `indices[vertex]` lookup raises `IndexError` (a face id that is not a
    valid index into the index map), which the surrounding
    `try/except` turns into `return None`.
  * `add_mesh` is total: `np.vstack` never inspects face ids, and its only
    failure mode (stacking arrays whose row widths differ) concerns buffers
    that do not represent a well-formed vertex/face table at all, which the
    list representation of the data model cannot express.  In particular no
    exception is reachable from an out-of-range face id.
  * The trigonometric functions and `np.pi` appearing in the generators are
    passed as parameters (`sin`, `cos`, `pi`) over an arbitrary field, so the
    face combinatorics — the content of the claims — is embedded exactly while
    the transcendental coordinate values stay abstract.
-/

/-- Coordinate triple (x, y, z) of a vertex. -/
abbrev Vec3 : Type := ℚ × ℚ × ℚ

/-- Default vertex used with `List.getD`. -/
def d3 : Vec3 := (0, 0, 0)

/-- Squared Euclidean distance between two vertices. -/
def sqDist (a b : Vec3) : ℚ :=
  (a.1 - b.1) ^ 2 + (a.2.1 - b.2.1) ^ 2 + (a.2.2 - b.2.2) ^ 2

/-- Embedding of `np.linalg.norm(vertex - unique_vertex) < threshold`:
true iff the Euclidean distance between `a` and `b` is strictly below `t`
(`close_iff_dist` relates this to the real square root). -/
def close (t : ℚ) (a b : Vec3) : Bool :=
  decide (0 ≤ t) && decide (sqDist a b < t * t)

/-- A mesh: ordered vertex buffer plus faces holding positional vertex ids
(`class Mesh` in the source, with the vertex entry type left polymorphic). -/
structure Mesh (α : Type) where
  vertices : List α
  faces : List (List Nat)

/-- Index-validity invariant of the data model: every id referenced by a face
is a valid index into `vertices`. -/
def validMesh {α : Type} (m : Mesh α) : Prop :=
  ∀ f ∈ m.faces, ∀ v ∈ f, v < m.vertices.length

instance {α : Type} (m : Mesh α) : Decidable (validMesh m) := by
  unfold validMesh; infer_instance

/-- Embedding of `Mesh.add_mesh`: stack the vertex buffers and the face
buffers, shifting every id of `other` by `len(self.vertices)`. -/
def Mesh.add_mesh {α : Type} (m other : Mesh α) : Mesh α :=
  let offset := m.vertices.length
  { vertices := m.vertices ++ other.vertices
    faces := m.faces ++ other.faces.map (fun f => f.map (fun v => v + offset)) }

/-- Index of the first entry of the kept list within `threshold` of `v`
(the inner `for i, unique_vertex in enumerate(unique_vertices)` scan with its
`break`). -/
def firstClose (t : ℚ) (v : Vec3) : List Vec3 → Option Nat
  | [] => none
  | u :: rest =>
    if close t v u then some 0
    else (firstClose t v rest).map (fun i => i + 1)

/-- One iteration of the outer `for vertex in self.vertices` loop of
`merge_vertices`: the state is the kept (unique) vertex list and the index
map built so far. -/
def weldStep (t : ℚ) (acc : List Vec3 × List Nat) (v : Vec3) : List Vec3 × List Nat :=
  match firstClose t v acc.1 with
  | some i => (acc.1, acc.2 ++ [i])
  | none => (acc.1 ++ [v], acc.2 ++ [acc.1.length])

/-- The whole vertex-deduplication loop of `merge_vertices`: kept vertices and
the original-index-to-kept-index map. -/
def weldPass (t : ℚ) (vs : List Vec3) : List Vec3 × List Nat :=
  vs.foldl (weldStep t) ([], [])

/-- Embedding of `Mesh.merge_vertices`: weld the vertices, then rebuild every
face through the index map.  The source's `indices[vertex]` raises
`IndexError` when a face id is not a valid index into `indices`, and the
`except` branch then returns `None`; that is the (only) `none` case here. -/
def Mesh.merge_vertices (m : Mesh Vec3) (threshold : ℚ) : Option (Mesh Vec3) :=
  if m.faces.all (fun f => f.all (fun v =>
      decide (v < (weldPass threshold m.vertices).2.length))) then
    some { vertices := (weldPass threshold m.vertices).1
           faces := m.faces.map (fun f =>
             f.map (fun v => (weldPass threshold m.vertices).2.getD v 0)) }
  else
    none

/-- Embedding of Python's `range(0, stop, 2)` over natural `stop`. -/
def evensBelow (stop : Nat) : List Nat :=
  (List.range ((stop + 1) / 2)).map (fun r => r * 2)

/-- Embedding of `create_cube`: 8 corners, 6 quads. -/
def create_cube {α : Type} [Field α] (size : α) : Mesh (α × α × α) :=
  { vertices :=
      [(-size, -size, -size), (size, -size, -size), (size, size, -size),
       (-size, size, -size), (-size, -size, size), (size, -size, size),
       (size, size, size), (-size, size, size)]
    faces :=
      [[0, 1, 2, 3], [4, 5, 6, 7], [0, 1, 5, 4],
       [2, 3, 7, 6], [0, 3, 7, 4], [1, 2, 6, 5]] }

/-- Vertex list built by `create_sphere`: two vertices per
(latitude band, longitude step) pair. -/
def sphereVertices {α : Type} [Field α] (sin cos : α → α) (pi : α)
    (radius : α) (segments : Nat) : List (α × α × α) :=
  (List.range segments).flatMap (fun (i : Nat) =>
    let lat0 := pi * (-(1 / 2) + (i : α) / (segments : α))
    let z0 := sin lat0
    let zr0 := cos lat0
    let lat1 := pi * (-(1 / 2) + ((i : α) + 1) / (segments : α))
    let z1 := sin lat1
    let zr1 := cos lat1
    (List.range segments).flatMap (fun (j : Nat) =>
      let lng := 2 * pi * (j : α) / (segments : α)
      let x := cos lng
      let y := sin lng
      [(x * zr0 * radius, y * zr0 * radius, z0 * radius),
       (x * zr1 * radius, y * zr1 * radius, z1 * radius)]))

/-- Embedding of `create_sphere`: the vertex list above, and quad faces over
consecutive even indices below `len(vertices) - segments*2`. -/
def create_sphere {α : Type} [Field α] (sin cos : α → α) (pi : α)
    (radius : α) (segments : Nat) : Mesh (α × α × α) :=
  { vertices := sphereVertices sin cos pi radius segments
    faces := (evensBelow ((sphereVertices sin cos pi radius segments).length -
        segments * 2)).map (fun i =>
      [i, i + 1, i + segments * 2 + 1, i + segments * 2]) }

/-- Vertex list built by `create_cylinder`: two rings of `segments` vertices
(z = 0 and z = height, interleaved per segment). -/
def cylinderVertices {α : Type} [Field α] (sin cos : α → α) (pi : α)
    (radius height : α) (segments : Nat) : List (α × α × α) :=
  (List.range segments).flatMap (fun (i : Nat) =>
    let angle := 2 * pi * (i : α) / (segments : α)
    let x := cos angle * radius
    let y := sin angle * radius
    [(x, y, 0), (x, y, height)])

/-- Embedding of `create_cylinder`: side quads with wrap-around modulo
`segments * 2`. -/
def create_cylinder {α : Type} [Field α] (sin cos : α → α) (pi : α)
    (radius height : α) (segments : Nat) : Mesh (α × α × α) :=
  { vertices := cylinderVertices sin cos pi radius height segments
    faces := (evensBelow (segments * 2)).map (fun i =>
      [i, (i + 2) % (segments * 2), (i + 3) % (segments * 2), i + 1]) }

/-- Vertex grid built by `create_torus`: `segments × sides` points in row-major
order. -/
def torusVertices {α : Type} [Field α] (sin cos : α → α) (pi : α)
    (inner_radius outer_radius : α) (segments sides : Nat) : List (α × α × α) :=
  (List.range segments).flatMap (fun (i : Nat) =>
    (List.range sides).map (fun (j : Nat) =>
      let angle := 2 * pi * (i : α) / (segments : α)
      let theta := 2 * pi * (j : α) / (sides : α)
      ((outer_radius + inner_radius * cos theta) * cos angle,
       (outer_radius + inner_radius * cos theta) * sin angle,
       inner_radius * sin theta)))

/-- Embedding of `create_torus`: quads with wrap-around in both grid
directions. -/
def create_torus {α : Type} [Field α] (sin cos : α → α) (pi : α)
    (inner_radius outer_radius : α) (segments sides : Nat) : Mesh (α × α × α) :=
  { vertices := torusVertices sin cos pi inner_radius outer_radius segments sides
    faces := (List.range segments).flatMap (fun i =>
      (List.range sides).map (fun j =>
        [i * sides + j,
         i * sides + (j + 1) % sides,
         ((i + 1) % segments) * sides + (j + 1) % sides,
         ((i + 1) % segments) * sides + j])) }

/-- State of the `GLWidget` composition pipeline: the ordered accumulator
`self.meshes` and the cached `self.combined_mesh` (absent / `None` until set). -/
structure GLState where
  meshes : List (Mesh Vec3)
  combined_mesh : Option (Mesh Vec3)

/-- The freshly constructed widget: empty accumulator, no combined mesh. -/
def initGLState : GLState :=
  { meshes := [], combined_mesh := none }

/-- Embedding of `GLWidget.add_mesh`: append, and once more than one mesh has
accumulated, fold `Mesh.add_mesh` left-to-right over the whole accumulator
and weld with the default threshold `0.01`.  The `headD` default is
unreachable because the freshly appended list is never empty. -/
def GLState.add_mesh (s : GLState) (m : Mesh Vec3) : GLState :=
  let ms := s.meshes ++ [m]
  if 1 < ms.length then
    { meshes := ms
      combined_mesh :=
        (ms.tail.foldl Mesh.add_mesh (ms.headD { vertices := [], faces := [] })).merge_vertices
          (1 / 100) }
  else
    { meshes := ms, combined_mesh := s.combined_mesh }

/-- Run a sequence of pipeline appends from the initial widget state. -/
def runAppends (ms : List (Mesh Vec3)) : GLState :=
  ms.foldl GLState.add_mesh initGLState

/-! ### Basic facts about the closeness test -/

lemma sqDist_comm (a b : Vec3) : sqDist a b = sqDist b a := by
  unfold sqDist; ring

lemma sqDist_nonneg (a b : Vec3) : 0 ≤ sqDist a b := by
  unfold sqDist; positivity

lemma close_comm (t : ℚ) (a b : Vec3) : close t a b = close t b a := by
  unfold close; rw [sqDist_comm]

/-- The Boolean test of `merge_vertices` decides exactly "Euclidean distance
strictly below `t`" whenever the threshold is nonnegative. -/
lemma close_iff_dist (t : ℚ) (ht : 0 ≤ t) (a b : Vec3) :
    close t a b = true ↔ Real.sqrt ((sqDist a b : ℚ) : ℝ) < (t : ℝ) := by
  rcases eq_or_lt_of_le ht with h0 | h0
  · constructor
    · intro h
      exfalso
      have hs := sqDist_nonneg a b
      simp only [close, Bool.and_eq_true, decide_eq_true_eq] at h
      rw [← h0] at h
      have := h.2
      nlinarith
    · intro h
      exfalso
      have hnn : (0 : ℝ) ≤ Real.sqrt ((sqDist a b : ℚ) : ℝ) := Real.sqrt_nonneg _
      rw [← h0] at h
      push_cast at h
      linarith
  · have hb : close t a b = true ↔ sqDist a b < t * t := by
      simp [close, ht]
    rw [hb, Real.sqrt_lt' (by exact_mod_cast h0)]
    constructor
    · intro h
      have : ((sqDist a b : ℚ) : ℝ) < ((t * t : ℚ) : ℝ) := by exact_mod_cast h
      calc ((sqDist a b : ℚ) : ℝ) < ((t * t : ℚ) : ℝ) := this
        _ = (t : ℝ) ^ 2 := by push_cast; ring
    · intro h
      have : ((sqDist a b : ℚ) : ℝ) < ((t * t : ℚ) : ℝ) := by
        calc ((sqDist a b : ℚ) : ℝ) < (t : ℝ) ^ 2 := h
          _ = ((t * t : ℚ) : ℝ) := by push_cast; ring
      exact_mod_cast this

/-! ### List index helpers -/

lemma getD_snoc_length {α : Type} (l : List α) (v d : α) :
    (l ++ [v]).getD l.length d = v := by
  rw [List.getD_append_right _ _ _ _ (le_refl _)]
  simp

lemma getD_mem {α : Type} {l : List α} {i : Nat} (h : i < l.length) (d : α) :
    l.getD i d ∈ l := by
  rw [List.getD_eq_getElem l d h]
  exact List.getElem_mem _

lemma take_succ_getD {α : Type} (l : List α) (k : Nat) (h : k < l.length) (d : α) :
    l.take (k + 1) = l.take k ++ [l.getD k d] := by
  rw [List.getD_eq_getElem l d h, ← List.take_concat_get l k h]
  simp [List.concat_eq_append]

/-! ### The first-match scan -/

lemma firstClose_some_lt {t : ℚ} {v : Vec3} {l : List Vec3} {i : Nat}
    (h : firstClose t v l = some i) : i < l.length := by
  induction l generalizing i with
  | nil => simp [firstClose] at h
  | cons u rest ih =>
    rw [firstClose] at h
    by_cases hc : close t v u
    · simp [hc] at h
      simp [← h]
    · simp [hc] at h
      obtain ⟨j, hj, rfl⟩ := h
      have := ih hj
      simp
      omega

lemma firstClose_spec_some {t : ℚ} {v : Vec3} {l : List Vec3} {i : Nat}
    (h : firstClose t v l = some i) :
    i < l.length ∧ close t v (l.getD i d3) = true ∧
      ∀ j, j < i → close t v (l.getD j d3) = false := by
  induction l generalizing i with
  | nil => simp [firstClose] at h
  | cons u rest ih =>
    rw [firstClose] at h
    by_cases hc : close t v u
    · simp [hc] at h
      refine ⟨by simp [← h], by simpa [← h] using hc, ?_⟩
      intro j hj
      omega
    · simp [hc] at h
      obtain ⟨j, hj, rfl⟩ := h
      obtain ⟨h1, h2, h3⟩ := ih hj
      simp only [Bool.not_eq_true] at hc
      refine ⟨by simp; omega, by simpa using h2, ?_⟩
      intro k hk
      cases k with
      | zero => simpa using hc
      | succ k0 => simpa using h3 k0 (by omega)

lemma firstClose_none_iff {t : ℚ} {v : Vec3} {l : List Vec3} :
    firstClose t v l = none ↔ ∀ u ∈ l, close t v u = false := by
  induction l with
  | nil => simp [firstClose]
  | cons u rest ih =>
    rw [firstClose]
    by_cases hc : close t v u
    · simp [hc]
    · simp only [Bool.not_eq_true] at hc
      simp [hc, ih]

/-! ### Shape of a single welding step and of the whole pass -/

lemma weldStep_eq (t : ℚ) (acc : List Vec3 × List Nat) (v : Vec3) :
    (firstClose t v acc.1 = none ∧
        weldStep t acc v = (acc.1 ++ [v], acc.2 ++ [acc.1.length])) ∨
      ∃ i, firstClose t v acc.1 = some i ∧ weldStep t acc v = (acc.1, acc.2 ++ [i]) := by
  rcases h : firstClose t v acc.1 with _ | i
  · exact Or.inl ⟨rfl, by simp [weldStep, h]⟩
  · exact Or.inr ⟨i, rfl, by simp [weldStep, h]⟩

lemma weldStep_shape (t : ℚ) (acc : List Vec3 × List Nat) (v : Vec3) :
    ∃ k, (weldStep t acc v).2 = acc.2 ++ [k] ∧ k < (weldStep t acc v).1.length ∧
      ((weldStep t acc v).1 = acc.1 ∨ (weldStep t acc v).1 = acc.1 ++ [v]) := by
  rcases weldStep_eq t acc v with ⟨h1, h2⟩ | ⟨i, h1, h2⟩
  · exact ⟨acc.1.length, by rw [h2], by rw [h2]; simp, Or.inr (by rw [h2])⟩
  · have hi := firstClose_some_lt h1
    exact ⟨i, by rw [h2], by rw [h2]; simpa using hi, Or.inl (by rw [h2])⟩

lemma foldl_weldStep_snd_length (t : ℚ) (l : List Vec3) :
    ∀ acc : List Vec3 × List Nat,
      (l.foldl (weldStep t) acc).2.length = acc.2.length + l.length := by
  induction l with
  | nil => intro acc; simp
  | cons v rest ih =>
    intro acc
    rw [List.foldl_cons, ih]
    obtain ⟨k, hk, -, -⟩ := weldStep_shape t acc v
    rw [hk]
    simp
    omega

lemma weldPass_snd_length (t : ℚ) (vs : List Vec3) :
    (weldPass t vs).2.length = vs.length := by
  simpa [weldPass] using foldl_weldStep_snd_length t vs ([], [])

lemma foldl_weldStep_fst_le (t : ℚ) (l : List Vec3) :
    ∀ acc : List Vec3 × List Nat,
      (l.foldl (weldStep t) acc).1.length ≤ acc.1.length + l.length := by
  induction l with
  | nil => intro acc; simp
  | cons v rest ih =>
    intro acc
    rw [List.foldl_cons]
    refine (ih _).trans ?_
    obtain ⟨k, -, -, hfst⟩ := weldStep_shape t acc v
    rcases hfst with h | h <;> rw [h] <;> simp <;> omega

lemma weldPass_fst_length_le (t : ℚ) (vs : List Vec3) :
    (weldPass t vs).1.length ≤ vs.length := by
  simpa [weldPass] using foldl_weldStep_fst_le t vs ([], [])

lemma foldl_weldStep_snd_extends (t : ℚ) (l : List Vec3) :
    ∀ acc : List Vec3 × List Nat, ∃ ext, (l.foldl (weldStep t) acc).2 = acc.2 ++ ext := by
  induction l with
  | nil => intro acc; exact ⟨[], by simp⟩
  | cons v rest ih =>
    intro acc
    obtain ⟨k, hsnd, -, -⟩ := weldStep_shape t acc v
    obtain ⟨ext, hext⟩ := ih (weldStep t acc v)
    exact ⟨k :: ext, by rw [List.foldl_cons, hext, hsnd]; simp⟩

lemma foldl_weldStep_snd_bound (t : ℚ) (l : List Vec3) :
    ∀ acc : List Vec3 × List Nat, (∀ k ∈ acc.2, k < acc.1.length) →
      ∀ k ∈ (l.foldl (weldStep t) acc).2, k < (l.foldl (weldStep t) acc).1.length := by
  induction l with
  | nil => intro acc h; simpa using h
  | cons v rest ih =>
    intro acc h
    rw [List.foldl_cons]
    apply ih
    obtain ⟨k0, hsnd, hlt, hfst⟩ := weldStep_shape t acc v
    intro k hk
    rw [hsnd] at hk
    rcases List.mem_append.mp hk with hk | hk
    · have hb := h k hk
      rcases hfst with hf | hf <;> rw [hf] <;> simp <;> omega
    · simp at hk
      subst hk
      exact hlt

lemma weldPass_snd_bound (t : ℚ) (vs : List Vec3) :
    ∀ k ∈ (weldPass t vs).2, k < (weldPass t vs).1.length := by
  have h := foldl_weldStep_snd_bound t vs ([], []) (by simp)
  simpa [weldPass] using h

lemma weldPass_snoc (t : ℚ) (vs : List Vec3) (v : Vec3) :
    weldPass t (vs ++ [v]) = weldStep t (weldPass t vs) v := by
  simp [weldPass, List.foldl_append]

lemma weldPass_append (t : ℚ) (vs ws : List Vec3) :
    weldPass t (vs ++ ws) = ws.foldl (weldStep t) (weldPass t vs) := by
  simp [weldPass, List.foldl_append]

/-! ### Pairwise separation of the kept list -/

/-- No two distinct entries of `l` are within the welding threshold of each
other. -/
def keptSep (t : ℚ) (l : List Vec3) : Prop :=
  ∀ i j, i < j → j < l.length → close t (l.getD j d3) (l.getD i d3) = false

lemma keptSep_snoc {t : ℚ} {l : List Vec3} {v : Vec3}
    (hl : keptSep t l) (hv : ∀ u ∈ l, close t v u = false) :
    keptSep t (l ++ [v]) := by
  intro i j hij hj
  simp only [List.length_append, List.length_cons, List.length_nil] at hj
  by_cases hjl : j < l.length
  · rw [List.getD_append _ _ _ _ hjl, List.getD_append _ _ _ _ (lt_trans hij hjl)]
    exact hl i j hij hjl
  · have hj' : j = l.length := by omega
    subst hj'
    rw [getD_snoc_length, List.getD_append _ _ _ _ (by omega : i < l.length)]
    exact hv _ (getD_mem (by omega) d3)

lemma keptSep_of_snoc {t : ℚ} {l : List Vec3} {v : Vec3}
    (h : keptSep t (l ++ [v])) : keptSep t l := by
  intro i j hij hj
  have hres := h i j hij (by simp; omega)
  rwa [List.getD_append _ _ _ _ hj, List.getD_append _ _ _ _ (lt_trans hij hj)] at hres

lemma foldl_weldStep_sep (t : ℚ) (l : List Vec3) :
    ∀ acc : List Vec3 × List Nat, keptSep t acc.1 →
      keptSep t (l.foldl (weldStep t) acc).1 := by
  induction l with
  | nil => intro acc h; simpa using h
  | cons v rest ih =>
    intro acc h
    rw [List.foldl_cons]
    apply ih
    rcases weldStep_eq t acc v with ⟨h1, h2⟩ | ⟨i, h1, h2⟩
    · rw [h2]
      exact keptSep_snoc h (firstClose_none_iff.mp h1)
    · rw [h2]
      exact h

lemma weldPass_fst_sep (t : ℚ) (vs : List Vec3) : keptSep t (weldPass t vs).1 := by
  apply foldl_weldStep_sep
  intro i j hij hj
  simp at hj

/-- Welding a list whose entries are already pairwise separated keeps every
entry: no further merging is possible. -/
lemma weldPass_fst_of_sep (t : ℚ) (l : List Vec3) (h : keptSep t l) :
    (weldPass t l).1 = l := by
  induction l using List.reverseRecOn with
  | nil => simp [weldPass]
  | append_singleton l' v ih =>
    have hIH := ih (keptSep_of_snoc h)
    rw [weldPass_snoc]
    have hnone : firstClose t v (weldPass t l').1 = none := by
      rw [hIH]
      apply firstClose_none_iff.mpr
      intro u hu
      obtain ⟨i, hi, rfl⟩ := List.mem_iff_getElem.mp hu
      have hres := h i l'.length hi (by simp)
      rw [getD_snoc_length, List.getD_append _ _ _ _ hi,
        List.getD_eq_getElem l' d3 hi] at hres
      exact hres
    rcases weldStep_eq t (weldPass t l') v with ⟨-, h2⟩ | ⟨i, h1, -⟩
    · rw [h2]
      simp [hIH]
    · rw [hnone] at h1
      cases h1

/-! ### Facts about `merge_vertices` -/

lemma merge_vertices_eq_some {m : Mesh Vec3} (t : ℚ) (h : validMesh m) :
    m.merge_vertices t =
      some { vertices := (weldPass t m.vertices).1
             faces := m.faces.map (fun f =>
               f.map (fun v => (weldPass t m.vertices).2.getD v 0)) } := by
  have hcond : m.faces.all (fun f => f.all (fun v =>
      decide (v < (weldPass t m.vertices).2.length))) = true := by
    rw [List.all_eq_true]
    intro f hf
    rw [List.all_eq_true]
    intro v hv
    rw [weldPass_snd_length]
    exact decide_eq_true (h f hf v hv)
  unfold Mesh.merge_vertices
  rw [if_pos hcond]

lemma merge_vertices_some_inv {m m' : Mesh Vec3} {t : ℚ}
    (h : m.merge_vertices t = some m') :
    validMesh m ∧
      m'.vertices = (weldPass t m.vertices).1 ∧
      m'.faces = m.faces.map (fun f =>
        f.map (fun v => (weldPass t m.vertices).2.getD v 0)) := by
  unfold Mesh.merge_vertices at h
  by_cases hc : m.faces.all (fun f => f.all (fun v =>
      decide (v < (weldPass t m.vertices).2.length))) = true
  · rw [if_pos hc] at h
    injection h with h
    subst h
    refine ⟨?_, rfl, rfl⟩
    intro f hf v hv
    have h1 := List.all_eq_true.mp hc f hf
    have h2 := List.all_eq_true.mp h1 v hv
    rw [weldPass_snd_length] at h2
    exact of_decide_eq_true h2
  · rw [if_neg hc] at h
    cases h

lemma merge_vertices_eq_none {m : Mesh Vec3} {t : ℚ} (h : ¬ validMesh m) :
    m.merge_vertices t = none := by
  rcases hres : m.merge_vertices t with _ | m'
  · rfl
  · exact absurd (merge_vertices_some_inv hres).1 h

/-- The output of a successful weld satisfies the index-validity invariant. -/
lemma merge_vertices_valid {m m' : Mesh Vec3} {t : ℚ}
    (h : m.merge_vertices t = some m') : validMesh m' := by
  obtain ⟨hm, hv, hf⟩ := merge_vertices_some_inv h
  intro f hf' v hv'
  rw [hf] at hf'
  obtain ⟨f0, hf0, rfl⟩ := List.mem_map.mp hf'
  obtain ⟨v0, hv0, rfl⟩ := List.mem_map.mp hv'
  rw [hv]
  have hlt : v0 < (weldPass t m.vertices).2.length := by
    rw [weldPass_snd_length]
    exact hm f0 hf0 v0 hv0
  exact weldPass_snd_bound t m.vertices _ (getD_mem hlt 0)

/-! ### Per-vertex characterization of the welding pass -/

lemma weldPass_take_snd_length (t : ℚ) (vs : List Vec3) (k : Nat) (hk : k ≤ vs.length) :
    (weldPass t (vs.take k)).2.length = k := by
  rw [weldPass_snd_length, List.length_take]
  omega

/-- The index-map entry for vertex `k` is already determined after the first
`k + 1` vertices have been processed. -/
lemma weldPass_snd_getD_step (t : ℚ) (vs : List Vec3) (k : Nat) (hk : k < vs.length) :
    (weldPass t vs).2.getD k 0 = (weldPass t (vs.take (k + 1))).2.getD k 0 := by
  obtain ⟨ext, hext⟩ :=
    foldl_weldStep_snd_extends t (vs.drop (k + 1)) (weldPass t (vs.take (k + 1)))
  have hsplit : (weldPass t vs).2 = (weldPass t (vs.take (k + 1))).2 ++ ext := by
    conv_lhs => rw [← List.take_append_drop (k + 1) vs]
    rw [weldPass_append]
    exact hext
  rw [hsplit, List.getD_append]
  rw [weldPass_take_snd_length t vs (k + 1) (by omega)]
  omega

/-- What happens to vertex `k` during the weld: either some already-kept
vertex is within the threshold — then the vertex is mapped to the FIRST such
kept index and nothing is appended — or none is, and the vertex is appended
and mapped to its own new index. -/
lemma weldPass_first_match (t : ℚ) (vs : List Vec3) (k : Nat) (hk : k < vs.length) :
    ((∃ j, j < ((weldPass t (vs.take k)).1).length ∧
        close t (vs.getD k d3) (((weldPass t (vs.take k)).1).getD j d3) = true) →
      (weldPass t vs).2.getD k 0 < ((weldPass t (vs.take k)).1).length ∧
      close t (vs.getD k d3)
        (((weldPass t (vs.take k)).1).getD ((weldPass t vs).2.getD k 0) d3) = true ∧
      (∀ j, j < (weldPass t vs).2.getD k 0 →
        close t (vs.getD k d3) (((weldPass t (vs.take k)).1).getD j d3) = false) ∧
      (weldPass t (vs.take (k + 1))).1 = (weldPass t (vs.take k)).1) ∧
    ((∀ j, j < ((weldPass t (vs.take k)).1).length →
        close t (vs.getD k d3) (((weldPass t (vs.take k)).1).getD j d3) = false) →
      (weldPass t vs).2.getD k 0 = ((weldPass t (vs.take k)).1).length ∧
      (weldPass t (vs.take (k + 1))).1 =
        (weldPass t (vs.take k)).1 ++ [vs.getD k d3]) := by
  have hstep : weldPass t (vs.take (k + 1)) =
      weldStep t (weldPass t (vs.take k)) (vs.getD k d3) := by
    rw [take_succ_getD vs k hk d3, weldPass_snoc]
  have hlen2 : (weldPass t (vs.take k)).2.length = k :=
    weldPass_take_snd_length t vs k (le_of_lt hk)
  have hidx := weldPass_snd_getD_step t vs k hk
  have hgen : ∀ (L : List Nat) (val : Nat), L.length = k → (L ++ [val]).getD k 0 = val := by
    intro L val hL
    rw [← hL]
    exact getD_snoc_length _ _ _
  rcases weldStep_eq t (weldPass t (vs.take k)) (vs.getD k d3) with ⟨h1, h2⟩ | ⟨i, h1, h2⟩
  · have hival : (weldPass t vs).2.getD k 0 = ((weldPass t (vs.take k)).1).length := by
      rw [hidx, hstep, h2]
      exact hgen _ _ hlen2
    constructor
    · intro hex
      exfalso
      obtain ⟨j, hj, hcl⟩ := hex
      have hfalse := firstClose_none_iff.mp h1 _ (getD_mem hj d3)
      rw [hfalse] at hcl
      cases hcl
    · intro hall
      refine ⟨hival, ?_⟩
      rw [hstep, h2]
  · obtain ⟨hi1, hi2, hi3⟩ := firstClose_spec_some h1
    have hival : (weldPass t vs).2.getD k 0 = i := by
      rw [hidx, hstep, h2]
      exact hgen _ _ hlen2
    constructor
    · intro hex
      rw [hival]
      exact ⟨hi1, hi2, hi3, by rw [hstep, h2]⟩
    · intro hall
      exfalso
      have hcl := hall i hi1
      rw [hi2] at hcl
      cases hcl

/-! ### Generator face validity -/

/-- Every face is a quad of valid vertex ids. -/
def facesQuadValid {α : Type} (m : Mesh α) : Prop :=
  ∀ f ∈ m.faces, f.length = 4 ∧ ∀ v ∈ f, v < m.vertices.length

lemma length_flatMap_const {α β : Type} (l : List α) (f : α → List β) (k : Nat)
    (h : ∀ a ∈ l, (f a).length = k) : (l.flatMap f).length = l.length * k := by
  induction l with
  | nil => simp
  | cons a rest ih =>
    rw [List.flatMap_cons, List.length_append, h a (by simp),
      ih (fun x hx => h x (by simp [hx])), List.length_cons]
    ring

lemma mem_evensBelow {stop i : Nat} (h : i ∈ evensBelow stop) :
    ∃ r, i = r * 2 ∧ r < (stop + 1) / 2 := by
  unfold evensBelow at h
  obtain ⟨r, hr, rfl⟩ := List.mem_map.mp h
  exact ⟨r, rfl, List.mem_range.mp hr⟩

lemma grid_index_lt {a b s n : Nat} (ha : a < s) (hb : b < n) :
    a * n + b < s * n := by
  have h1 : (a + 1) * n ≤ s * n := Nat.mul_le_mul_right n (by omega)
  have h2 : (a + 1) * n = a * n + n := by ring
  omega

lemma sphereVertices_length {α : Type} [Field α] (sin cos : α → α) (pi radius : α)
    (segments : Nat) :
    (sphereVertices sin cos pi radius segments).length = segments * (segments * 2) := by
  unfold sphereVertices
  refine (length_flatMap_const _ _ (segments * 2) ?_).trans (by simp)
  intro i hi
  refine (length_flatMap_const _ _ 2 ?_).trans (by simp)
  intro j hj
  rfl

lemma cylinderVertices_length {α : Type} [Field α] (sin cos : α → α)
    (pi radius height : α) (segments : Nat) :
    (cylinderVertices sin cos pi radius height segments).length = segments * 2 := by
  unfold cylinderVertices
  refine (length_flatMap_const _ _ 2 ?_).trans (by simp)
  intro i hi
  rfl

lemma torusVertices_length {α : Type} [Field α] (sin cos : α → α)
    (pi inner_radius outer_radius : α) (segments sides : Nat) :
    (torusVertices sin cos pi inner_radius outer_radius segments sides).length =
      segments * sides := by
  unfold torusVertices
  refine (length_flatMap_const _ _ sides ?_).trans (by simp)
  intro i hi
  rw [List.length_map, List.length_range]

lemma create_cube_valid {α : Type} [Field α] (size : α) :
    facesQuadValid (create_cube size) := by
  show ∀ f ∈ [[0, 1, 2, 3], [4, 5, 6, 7], [0, 1, 5, 4],
      [2, 3, 7, 6], [0, 3, 7, 4], [1, 2, 6, 5]],
    f.length = 4 ∧ ∀ v ∈ f, v < 8
  decide

lemma create_sphere_valid {α : Type} [Field α] (sin cos : α → α) (pi radius : α)
    (segments : Nat) :
    facesQuadValid (create_sphere sin cos pi radius segments) := by
  intro f hf
  have hlen := sphereVertices_length sin cos pi radius segments
  have hf' : f ∈ (evensBelow ((sphereVertices sin cos pi radius segments).length -
      segments * 2)).map (fun i =>
        [i, i + 1, i + segments * 2 + 1, i + segments * 2]) := hf
  obtain ⟨i, hi, rfl⟩ := List.mem_map.mp hf'
  obtain ⟨r, rfl, hr⟩ := mem_evensBelow hi
  refine ⟨rfl, ?_⟩
  intro v hv
  show v < (sphereVertices sin cos pi radius segments).length
  have h2 : (segments * (segments * 2)) % 2 = 0 := by
    have he : segments * (segments * 2) = (segments * segments) * 2 := by ring
    rw [he]
    exact Nat.mul_mod_left _ _
  rw [hlen] at hr ⊢
  obtain ⟨M, hMe⟩ : ∃ M, segments * (segments * 2) = M := ⟨_, rfl⟩
  rw [hMe] at hr h2 ⊢
  clear hMe hlen hi hf hf'
  simp only [List.mem_cons, List.not_mem_nil, or_false] at hv
  rcases hv with rfl | rfl | rfl | rfl
  all_goals omega

lemma create_cylinder_valid {α : Type} [Field α] (sin cos : α → α)
    (pi radius height : α) (segments : Nat) :
    facesQuadValid (create_cylinder sin cos pi radius height segments) := by
  intro f hf
  have hf' : f ∈ (evensBelow (segments * 2)).map (fun i =>
      [i, (i + 2) % (segments * 2), (i + 3) % (segments * 2), i + 1]) := hf
  obtain ⟨i, hi, rfl⟩ := List.mem_map.mp hf'
  obtain ⟨r, rfl, hr⟩ := mem_evensBelow hi
  refine ⟨rfl, ?_⟩
  intro v hv
  show v < (cylinderVertices sin cos pi radius height segments).length
  rw [cylinderVertices_length]
  have hpos : 0 < segments * 2 := by omega
  simp only [List.mem_cons, List.not_mem_nil, or_false] at hv
  rcases hv with rfl | rfl | rfl | rfl
  · omega
  · exact Nat.mod_lt _ hpos
  · exact Nat.mod_lt _ hpos
  · omega

lemma create_torus_valid {α : Type} [Field α] (sin cos : α → α)
    (pi inner_radius outer_radius : α) (segments sides : Nat) :
    facesQuadValid (create_torus sin cos pi inner_radius outer_radius segments sides) := by
  intro f hf
  have hf' : f ∈ (List.range segments).flatMap (fun i =>
      (List.range sides).map (fun j =>
        [i * sides + j,
         i * sides + (j + 1) % sides,
         ((i + 1) % segments) * sides + (j + 1) % sides,
         ((i + 1) % segments) * sides + j])) := hf
  obtain ⟨i, hi, hfm⟩ := List.mem_flatMap.mp hf'
  obtain ⟨j, hj, rfl⟩ := List.mem_map.mp hfm
  have hi' : i < segments := List.mem_range.mp hi
  have hj' : j < sides := List.mem_range.mp hj
  refine ⟨rfl, ?_⟩
  intro v hv
  show v < (torusVertices sin cos pi inner_radius outer_radius segments sides).length
  rw [torusVertices_length]
  simp only [List.mem_cons, List.not_mem_nil, or_false] at hv
  rcases hv with rfl | rfl | rfl | rfl
  · exact grid_index_lt hi' hj'
  · exact grid_index_lt hi' (Nat.mod_lt _ (by omega))
  · exact grid_index_lt (Nat.mod_lt _ (by omega)) (Nat.mod_lt _ (by omega))
  · exact grid_index_lt (Nat.mod_lt _ (by omega)) hj'

/-- Welding an already-welded mesh keeps its vertex list unchanged. -/
lemma merge_vertices_again {m m₁ : Mesh Vec3} {t : ℚ}
    (h : m.merge_vertices t = some m₁) :
    ∃ m₂, m₁.merge_vertices t = some m₂ ∧ m₂.vertices = m₁.vertices := by
  have hvalid : validMesh m₁ := merge_vertices_valid h
  have hsep : keptSep t m₁.vertices := by
    rw [(merge_vertices_some_inv h).2.1]
    exact weldPass_fst_sep t m.vertices
  refine ⟨_, merge_vertices_eq_some t hvalid, ?_⟩
  exact weldPass_fst_of_sep t m₁.vertices hsep

/-! ### Pipeline state lemmas -/

lemma GLState_add_mesh_meshes (s : GLState) (m : Mesh Vec3) :
    (s.add_mesh m).meshes = s.meshes ++ [m] := by
  simp only [GLState.add_mesh]
  split <;> rfl

lemma runAppends_meshes (ms : List (Mesh Vec3)) : (runAppends ms).meshes = ms := by
  induction ms using List.reverseRecOn with
  | nil => rfl
  | append_singleton ys y ih =>
    unfold runAppends at ih ⊢
    rw [List.foldl_append, List.foldl_cons, List.foldl_nil, GLState_add_mesh_meshes, ih]

lemma runAppends_snoc (ms : List (Mesh Vec3)) (m : Mesh Vec3) :
    runAppends (ms ++ [m]) = (runAppends ms).add_mesh m := by
  unfold runAppends
  rw [List.foldl_append, List.foldl_cons, List.foldl_nil]

lemma GLState_add_mesh_combined (s : GLState) (y m0 m1 : Mesh Vec3)
    (rest : List (Mesh Vec3)) (h : s.meshes ++ [y] = m0 :: m1 :: rest) :
    (s.add_mesh y).combined_mesh =
      ((m1 :: rest).foldl Mesh.add_mesh m0).merge_vertices (1 / 100) := by
  simp only [GLState.add_mesh, h]
  rw [if_pos (by simp only [List.length_cons]; omega)]
  rfl

/-! ### Concrete meshes used as witnesses -/

/-- The spec's weld example: an exact duplicate of the origin plus one distant
vertex, one triangular face. -/
def meshDup : Mesh Vec3 :=
  { vertices := [(0, 0, 0), (0, 0, 0), (1, 0, 0)], faces := [[0, 1, 2]] }

/-- What the duplicate mesh welds to at the default threshold. -/
def meshDupWelded : Mesh Vec3 :=
  { vertices := [(0, 0, 0), (1, 0, 0)], faces := [[0, 0, 1]] }

/-- A minimal valid one-vertex mesh. -/
def meshA : Mesh Vec3 := { vertices := [(0, 0, 0)], faces := [[0]] }

/-- Another minimal valid one-vertex mesh. -/
def meshB : Mesh Vec3 := { vertices := [(1, 0, 0)], faces := [[0]] }

/-- A malformed mesh: its only face references id 5 but there is one vertex. -/
def meshBad : Mesh Vec3 := { vertices := [(1, 0, 0)], faces := [[5]] }

/-- With threshold 0 the strict comparison `norm < 0` never holds, so nothing
merges at all: the example mesh is returned unchanged. -/
lemma meshDup_merge_zero : meshDup.merge_vertices 0 = some meshDup := by
  norm_num [Mesh.merge_vertices, weldPass, weldStep, firstClose, close, sqDist,
    meshDup, List.foldl, List.all, List.getD, List.get?]

/-- At the default threshold `0.01` the exact duplicate merges and the face is
remapped to `[0, 0, 1]`. -/
lemma meshDup_merge_default : meshDup.merge_vertices (1 / 100) = some meshDupWelded := by
  norm_num [Mesh.merge_vertices, weldPass, weldStep, firstClose, close, sqDist,
    meshDup, meshDupWelded, List.foldl, List.all, List.getD, List.get?]

/-! ## Claim theorems -/

/-- Claim C1: for index-valid meshes `a` and `b`, `add_mesh` returns a Mesh
whose vertex sequence is `a.vertices` followed by `b.vertices` in order, whose
face sequence is `a.faces` followed by `b.faces` with every id increased by
exactly `len(a.vertices)`, and whose vertex and face counts are the sums of
the inputs' counts. -/
theorem combine_concat_offset_counts {α : Type} (a b : Mesh α)
    (_ha : validMesh a) (_hb : validMesh b) :
    (a.add_mesh b).vertices = a.vertices ++ b.vertices ∧
    (a.add_mesh b).faces =
      a.faces ++ b.faces.map (fun f => f.map (fun v => v + a.vertices.length)) ∧
    (a.add_mesh b).vertices.length = a.vertices.length + b.vertices.length ∧
    (a.add_mesh b).faces.length = a.faces.length + b.faces.length := by
  refine ⟨rfl, rfl, ?_, ?_⟩ <;> simp [Mesh.add_mesh]

/-- Witness for C1 at two concrete one-vertex meshes. -/
theorem combine_concat_offset_counts_witness :
    validMesh meshA ∧ validMesh meshB ∧
      (meshA.add_mesh meshB).vertices = meshA.vertices ++ meshB.vertices ∧
      (meshA.add_mesh meshB).vertices.length = 2 :=
  ⟨by decide, by decide,
    (combine_concat_offset_counts meshA meshB (by decide) (by decide)).1,
    (combine_concat_offset_counts meshA meshB (by decide) (by decide)).2.2.1⟩

/-- Claim C2: every face produced by the box (any size), sphere, cylinder and
torus generators (any positive segment/side counts) consists of exactly 4
vertex ids, and every id is a valid index into the produced vertex list —
including the wrap-around faces built with the modulo expressions. -/
theorem generators_faces_quad_valid {α : Type} [Field α] (sin cos : α → α)
    (pi size radius height inner_radius outer_radius : α)
    (segments sides : Nat) (_hseg : 0 < segments) (_hsides : 0 < sides) :
    facesQuadValid (create_cube size) ∧
    facesQuadValid (create_sphere sin cos pi radius segments) ∧
    facesQuadValid (create_cylinder sin cos pi radius height segments) ∧
    facesQuadValid (create_torus sin cos pi inner_radius outer_radius segments sides) :=
  ⟨create_cube_valid size, create_sphere_valid sin cos pi radius segments,
    create_cylinder_valid sin cos pi radius height segments,
    create_torus_valid sin cos pi inner_radius outer_radius segments sides⟩

/-- Witness for C2 at rational parameters with 3 segments and 3 sides. -/
theorem generators_faces_quad_valid_witness :
    (0 < 3 ∧ facesQuadValid (create_sphere (id : ℚ → ℚ) id 0 1 3)) ∧
      facesQuadValid (create_torus (id : ℚ → ℚ) id 0 1 1 3 3) :=
  ⟨⟨by decide,
      (generators_faces_quad_valid (id : ℚ → ℚ) id 0 1 1 1 1 1 3 3
        (by decide) (by decide)).2.1⟩,
    (generators_faces_quad_valid (id : ℚ → ℚ) id 0 1 1 1 1 1 3 3
      (by decide) (by decide)).2.2.2⟩

/-- Claim C3: for a valid mesh and nonnegative threshold, `merge_vertices`
processes the original vertices in order; each vertex is mapped to the index
of the FIRST kept vertex at Euclidean distance strictly below the threshold
(first match wins, not the nearest), and otherwise is appended to the kept
list and mapped to its own new index; every face id is replaced by its mapped
kept index with face arity and face order unchanged. -/
theorem merge_vertices_first_match_spec (m : Mesh Vec3) (t : ℚ) (ht : 0 ≤ t)
    (hm : validMesh m) :
    m.merge_vertices t =
      some { vertices := (weldPass t m.vertices).1
             faces := m.faces.map (fun f =>
               f.map (fun v => (weldPass t m.vertices).2.getD v 0)) } ∧
    (weldPass t m.vertices).2.length = m.vertices.length ∧
    (∀ k, k < m.vertices.length →
      ((∃ j, j < ((weldPass t (m.vertices.take k)).1).length ∧
          close t (m.vertices.getD k d3)
            (((weldPass t (m.vertices.take k)).1).getD j d3) = true) →
        (weldPass t m.vertices).2.getD k 0 <
            ((weldPass t (m.vertices.take k)).1).length ∧
        close t (m.vertices.getD k d3)
          (((weldPass t (m.vertices.take k)).1).getD
            ((weldPass t m.vertices).2.getD k 0) d3) = true ∧
        (∀ j, j < (weldPass t m.vertices).2.getD k 0 →
          close t (m.vertices.getD k d3)
            (((weldPass t (m.vertices.take k)).1).getD j d3) = false) ∧
        (weldPass t (m.vertices.take (k + 1))).1 =
          (weldPass t (m.vertices.take k)).1) ∧
      ((∀ j, j < ((weldPass t (m.vertices.take k)).1).length →
          close t (m.vertices.getD k d3)
            (((weldPass t (m.vertices.take k)).1).getD j d3) = false) →
        (weldPass t m.vertices).2.getD k 0 =
            ((weldPass t (m.vertices.take k)).1).length ∧
        (weldPass t (m.vertices.take (k + 1))).1 =
          (weldPass t (m.vertices.take k)).1 ++ [m.vertices.getD k d3])) ∧
    (∀ a b : Vec3, close t a b = true ↔
      Real.sqrt ((sqDist a b : ℚ) : ℝ) < (t : ℝ)) := by
  refine ⟨merge_vertices_eq_some t hm, weldPass_snd_length t m.vertices, ?_,
    fun a b => close_iff_dist t ht a b⟩
  intro k hk
  exact weldPass_first_match t m.vertices k hk

/-- Witness for C3 at the duplicate-vertex example mesh and the default
threshold. -/
theorem merge_vertices_first_match_spec_witness :
    0 ≤ (1 / 100 : ℚ) ∧ validMesh meshDup ∧
      meshDup.merge_vertices (1 / 100) =
        some { vertices := (weldPass (1 / 100) meshDup.vertices).1
               faces := meshDup.faces.map (fun f =>
                 f.map (fun v => (weldPass (1 / 100) meshDup.vertices).2.getD v 0)) } :=
  ⟨by norm_num, by decide,
    (merge_vertices_first_match_spec meshDup (1 / 100) (by norm_num) (by decide)).1⟩

/-- Claim C4 is false on the code (counterexample): with threshold 0 the
strict comparison `norm < 0` never succeeds, so `merge_vertices 0` keeps all
3 vertices of the example mesh and leaves the face `[0, 1, 2]` unchanged; the
claimed result (2 kept vertices, face `[0, 0, 1]`) does not occur. -/
theorem merge_threshold_zero_counterexample :
    meshDup.merge_vertices 0 = some meshDup ∧
      ∀ m', meshDup.merge_vertices 0 = some m' →
        ¬ (m'.vertices.length = 2 ∧ m'.faces = [[0, 0, 1]]) := by
  refine ⟨meshDup_merge_zero, ?_⟩
  intro m' hm'
  rw [meshDup_merge_zero] at hm'
  injection hm' with hm'
  subst hm'
  rintro ⟨h2, -⟩
  norm_num [meshDup] at h2

/-- Claim C4 (amended): welding the example mesh with threshold 0 merges
nothing — the result keeps all 3 vertices and the face `[0, 1, 2]` — because
the comparison is strict; the exact duplicate merges at the positive default
threshold `0.01` instead, giving 2 kept vertices and face `[0, 0, 1]`. -/
theorem merge_threshold_zero_merges_nothing :
    meshDup.merge_vertices 0 = some meshDup ∧
      meshDup.merge_vertices (1 / 100) = some meshDupWelded :=
  ⟨meshDup_merge_zero, meshDup_merge_default⟩

/-- Claim C5 is false on the code (counterexample): `add_mesh` applied to the
valid `meshA` and the malformed `meshBad` (face id 5, one vertex) does not
fail — it returns a Mesh whose faces are `[[0], [6]]`, and id 6 is out of
range for the 2 result vertices, i.e. corrupted output is produced. -/
theorem add_mesh_malformed_counterexample :
    validMesh meshA ∧ ¬ validMesh meshBad ∧
      (meshA.add_mesh meshBad).faces = [[0], [6]] ∧
      ¬ validMesh (meshA.add_mesh meshBad) := by
  refine ⟨by decide, by decide, by decide, by decide⟩

/-- Claim C5 (amended): `add_mesh` performs no validity detection at all — for
every pair of meshes, malformed or not, it returns the concatenated/offset
Mesh (silently corrupt when an input is malformed) — while `merge_vertices`
on a mesh with an out-of-range face id does return the explicit failure
`none`. -/
theorem add_mesh_no_detection_merge_fails :
    (∀ a b : Mesh Vec3,
      (a.add_mesh b).vertices = a.vertices ++ b.vertices ∧
      (a.add_mesh b).faces =
        a.faces ++ b.faces.map (fun f => f.map (fun v => v + a.vertices.length))) ∧
    (∀ (m : Mesh Vec3) (t : ℚ),
      (∃ f ∈ m.faces, ∃ v ∈ f, m.vertices.length ≤ v) →
        m.merge_vertices t = none) := by
  constructor
  · intro a b
    exact ⟨rfl, rfl⟩
  · intro m t hex
    apply merge_vertices_eq_none
    intro hvalid
    obtain ⟨f, hf, v, hv, hge⟩ := hex
    exact absurd (hvalid f hf v hv) (by omega)

/-- Witness for the amended C5 at the concrete malformed mesh. -/
theorem add_mesh_no_detection_merge_fails_witness :
    (meshA.add_mesh meshBad).faces =
        meshA.faces ++ meshBad.faces.map (fun f =>
          f.map (fun v => v + meshA.vertices.length)) ∧
      meshBad.merge_vertices (1 / 100) = none :=
  ⟨(add_mesh_no_detection_merge_fails.1 meshA meshBad).2,
    add_mesh_no_detection_merge_fails.2 meshBad (1 / 100)
      ⟨[5], by decide, 5, by decide, by decide⟩⟩

/-- Claim C6: starting from the fresh widget, while fewer than two meshes have
been appended the cached combined result is `none`; once at least two meshes
are in the accumulator, the cache is recomputed from scratch as the
left-to-right fold of `add_mesh` over the whole accumulator in append order,
followed by one weld with the default threshold `0.01`. -/
theorem pipeline_combined_mesh_spec (ms : List (Mesh Vec3)) :
    (runAppends ms).meshes = ms ∧
    (ms.length < 2 → (runAppends ms).combined_mesh = none) ∧
    (∀ m0 m1 rest, ms = m0 :: m1 :: rest →
      (runAppends ms).combined_mesh =
        ((m1 :: rest).foldl Mesh.add_mesh m0).merge_vertices (1 / 100)) := by
  refine ⟨runAppends_meshes ms, ?_, ?_⟩
  · intro hlen
    match ms with
    | [] => rfl
    | [m0] => rfl
    | m0 :: m1 :: rest => exact absurd hlen (by simp only [List.length_cons]; omega)
  · intro m0 m1 rest h
    subst h
    rcases List.eq_nil_or_concat (m0 :: m1 :: rest) with hnil | ⟨ys, y, hys⟩
    · cases hnil
    · rw [hys, List.concat_eq_append, runAppends_snoc]
      apply GLState_add_mesh_combined
      rw [runAppends_meshes, ← List.concat_eq_append, ← hys]

/-- Witness for C6: appending the two concrete one-vertex meshes. -/
theorem pipeline_combined_mesh_spec_witness :
    (runAppends [meshA, meshB]).combined_mesh =
      (([meshB] : List (Mesh Vec3)).foldl Mesh.add_mesh meshA).merge_vertices (1 / 100) :=
  (pipeline_combined_mesh_spec [meshA, meshB]).2.2 meshA meshB [] rfl

/-- Claim C7: welding is idempotent on vertex count — welding an
already-welded mesh at the same threshold succeeds and merges nothing
further. -/
theorem merge_idempotent_vertex_count (m m₁ : Mesh Vec3) (t : ℚ) (_ht : 0 ≤ t)
    (h : m.merge_vertices t = some m₁) :
    ∃ m₂, m₁.merge_vertices t = some m₂ ∧
      m₂.vertices.length = m₁.vertices.length := by
  obtain ⟨m₂, h₂, hv⟩ := merge_vertices_again h
  exact ⟨m₂, h₂, by rw [hv]⟩

/-- Witness for C7 at the duplicate-vertex example mesh. -/
theorem merge_idempotent_vertex_count_witness :
    0 ≤ (1 / 100 : ℚ) ∧
      ∃ m₂, meshDupWelded.merge_vertices (1 / 100) = some m₂ ∧
        m₂.vertices.length = meshDupWelded.vertices.length :=
  ⟨by norm_num,
    merge_idempotent_vertex_count meshDup meshDupWelded (1 / 100) (by norm_num)
      meshDup_merge_default⟩

/-- Claim C8: welding never increases the vertex count. -/
theorem merge_vertex_count_le (m m' : Mesh Vec3) (t : ℚ) (_ht : 0 ≤ t)
    (h : m.merge_vertices t = some m') :
    m'.vertices.length ≤ m.vertices.length := by
  rw [(merge_vertices_some_inv h).2.1]
  exact weldPass_fst_length_le t m.vertices

/-- Witness for C8 at the duplicate-vertex example mesh. -/
theorem merge_vertex_count_le_witness :
    0 ≤ (1 / 100 : ℚ) ∧
      meshDupWelded.vertices.length ≤ meshDup.vertices.length :=
  ⟨by norm_num,
    merge_vertex_count_le meshDup meshDupWelded (1 / 100) (by norm_num)
      meshDup_merge_default⟩

/-- Claim C10: after a successful weld with a nonnegative threshold, any two
distinct kept vertices are at Euclidean distance not strictly less than the
threshold. -/
theorem merge_kept_separation (m m' : Mesh Vec3) (t : ℚ) (ht : 0 ≤ t)
    (h : m.merge_vertices t = some m') :
    ∀ i j, i < m'.vertices.length → j < m'.vertices.length → i ≠ j →
      ¬ Real.sqrt ((sqDist (m'.vertices.getD i d3) (m'.vertices.getD j d3) : ℚ) : ℝ) <
        (t : ℝ) := by
  intro i j hi hj hne
  have hsep : keptSep t m'.vertices := by
    rw [(merge_vertices_some_inv h).2.1]
    exact weldPass_fst_sep t m.vertices
  have hfalse : close t (m'.vertices.getD i d3) (m'.vertices.getD j d3) = false := by
    rcases Nat.lt_or_ge i j with hij | hij
    · rw [close_comm]
      exact hsep i j hij hj
    · have hji : j < i := by omega
      exact hsep j i hji hi
  intro hlt
  have htrue := (close_iff_dist t ht _ _).mpr hlt
  rw [hfalse] at htrue
  cases htrue

/-- Witness for C10: the two kept vertices of the welded example mesh are not
within the default threshold of each other. -/
theorem merge_kept_separation_witness :
    0 ≤ (1 / 100 : ℚ) ∧
      ¬ Real.sqrt ((sqDist (meshDupWelded.vertices.getD 0 d3)
          (meshDupWelded.vertices.getD 1 d3) : ℚ) : ℝ) < ((1 / 100 : ℚ) : ℝ) :=
  ⟨by norm_num,
    merge_kept_separation meshDup meshDupWelded (1 / 100) (by norm_num)
      meshDup_merge_default 0 1 (by decide) (by decide) (by decide)⟩
